import Mathlib

/-!
Shallow embedding of the metrics-aggregation core of the
"Hierarchical vs Flat Ensembles in RF Modulation Classification" repository.

The embedded code is:
* `scripts/hvf_eval.py`, function `run_eval` (the per-sample loop over the
  data iterator, the per-class win/loss/tie tally, the two confusion
  matrices, the latency lists and the percentile summary), together with its
  helper `bump`;
* `scripts/render_hvf_tables.py`, the SNR-stratified table construction in
  `main` (lines 43–53).

Python dictionaries preserve insertion order, so they are embedded as
association lists (`List (String × _)`); `dict.setdefault` appends a fresh
entry at the end when the key is absent.  Latencies are embedded as rational
numbers.  A classifier call that raises is embedded as `Except.error`.
-/

deriving instance DecidableEq for Except

namespace HVF

/-- Per-class tally record, mirroring the dict literal created by
`per_class.setdefault(label, {...})` in `run_eval`. -/
structure Tally where
  flat_correct : Nat
  hier_correct : Nat
  hier_wins : Nat
  flat_wins : Nat
  ties : Nat
deriving DecidableEq, Repr

/-- The zero tally installed by `setdefault` on first sight of a label. -/
def zeroTally : Tally := ⟨0, 0, 0, 0, 0⟩

/-- The metadata side channel written by the classifier onto `sig.metadata`:
each key may be absent, in which case `run_eval` falls back to a default. -/
structure Meta where
  base_pred : Option String
  lat_base_ms : Option ℚ
  lat_total_ms : Option ℚ
  used_specialized : Option Bool
deriving DecidableEq, Repr

/-- Result of a successful `clf.classify_signal(sig)` call: the hierarchical
prediction `yhat_h` plus the metadata breadcrumbs left on the signal. -/
structure ClassifyOut where
  yhat_h : String
  meta : Meta
deriving DecidableEq, Repr

/-- One element of the evaluation data stream: the true label together with
the outcome of classifying it (`Except.error` when the classifier raises). -/
structure Sample where
  label : String
  classify : Except String ClassifyOut
deriving DecidableEq, Repr

/-- The successful classification outcome, if any. -/
def Sample.out? (x : Sample) : Option ClassifyOut := x.classify.toOption

/-- Whether the classifier call succeeded for this sample. -/
def Sample.isOk (x : Sample) : Bool := x.out?.isSome

/-- `yhat_f = sig.metadata.get("base_pred", yhat_h)`: the flat prediction
reconstructed from breadcrumbs, defaulting to the hierarchical one. -/
def flatOf (o : ClassifyOut) : String := o.meta.base_pred.getD o.yhat_h

/-- `used_spec = bool(sig.metadata.get("used_specialized", False))`. -/
def usedSpecOf (o : ClassifyOut) : Bool := o.meta.used_specialized.getD false

/-- `lat_flat.append(float(sig.metadata.get("lat_base_ms", 0.0)))`. -/
def latBaseOf (o : ClassifyOut) : ℚ := o.meta.lat_base_ms.getD 0

/-- `lat_hier.append(float(sig.metadata.get("lat_total_ms", 0.0)))`. -/
def latTotalOf (o : ClassifyOut) : ℚ := o.meta.lat_total_ms.getD 0

/-- Lexicographic comparison of character lists by code point: the order
Python uses to compare the label strings in `sorted(per_class.items())`. -/
def charListLe : List Char → List Char → Bool
  | [], _ => true
  | _ :: _, [] => false
  | a :: as, b :: bs => if a < b then true else if b < a then false else charListLe as bs

/-- Python string comparison: lexicographic by code point. -/
def strLe (a b : String) : Bool := charListLe a.data b.data

/-- Dictionary lookup on an association list (Python `d[k]` / `k in d`). -/
def lookupT {α : Type} (k : String) : List (String × α) → Option α
  | [] => none
  | (k', v) :: rest => if k' = k then some v else lookupT k rest

/-- The five `if` statements of `run_eval` lines 155–164 applied to the
tally of the sample's true label, as a function of the two correctness
booleans. -/
def tallyUpdate (flatOk hierOk : Bool) (t : Tally) : Tally :=
  let t := if flatOk then { t with flat_correct := t.flat_correct + 1 } else t
  let t := if hierOk then { t with hier_correct := t.hier_correct + 1 } else t
  let t := if hierOk && !flatOk then { t with hier_wins := t.hier_wins + 1 } else t
  let t := if flatOk && !hierOk then { t with flat_wins := t.flat_wins + 1 } else t
  let t := if flatOk && hierOk then { t with ties := t.ties + 1 } else t
  t

/-- `per_class.setdefault(label, zero)` followed by the five tally `if`s:
update the entry for `label`, creating it (at the end, as Python dicts do)
when absent. -/
def updatePerClass (label : String) (flatOk hierOk : Bool) :
    List (String × Tally) → List (String × Tally)
  | [] => [(label, tallyUpdate flatOk hierOk zeroTally)]
  | (k, t) :: rest =>
    if k = label then (k, tallyUpdate flatOk hierOk t) :: rest
    else (k, t) :: updatePerClass label flatOk hierOk rest

/-- Inner update of `bump`: `mat[y].setdefault(yhat, 0); mat[y][yhat] += 1`
on the row of predicted-label counts. -/
def bumpRow (yhat : String) : List (String × Nat) → List (String × Nat)
  | [] => [(yhat, 1)]
  | (k, v) :: rest =>
    if k = yhat then (k, v + 1) :: rest else (k, v) :: bumpRow yhat rest

/-- `bump(mat, y, yhat)` from `run_eval`: lazily create the row for the
true label `y`, then increment the count of the predicted label `yhat`. -/
def bump (y yhat : String) :
    List (String × List (String × Nat)) → List (String × List (String × Nat))
  | [] => [(y, bumpRow yhat [])]
  | (k, row) :: rest =>
    if k = y then (k, bumpRow yhat row) :: rest
    else (k, row) :: bump y yhat rest

/-- The accumulators of `run_eval` other than the sample counter `n`:
`per_class`, the two latency lists and the two confusion matrices. -/
structure Agg where
  per_class : List (String × Tally)
  lat_flat : List ℚ
  lat_hier : List ℚ
  conf_flat : List (String × List (String × Nat))
  conf_hier : List (String × List (String × Nat))
deriving DecidableEq, Repr

/-- All accumulators start empty. -/
def initAgg : Agg := ⟨[], [], [], [], []⟩

/-- The body of the `try` block of `run_eval` for one successfully
classified sample: append latencies, update the per-class tally, bump both
confusion matrices. -/
def applyOk (a : Agg) (label : String) (o : ClassifyOut) : Agg :=
  let yhat_h := o.yhat_h
  let yhat_f := flatOf o
  let a := { a with
    lat_flat := a.lat_flat ++ [latBaseOf o],
    lat_hier := a.lat_hier ++ [latTotalOf o] }
  let flatOk := decide (yhat_f = label)
  let hierOk := decide (yhat_h = label)
  let a := { a with per_class := updatePerClass label flatOk hierOk a.per_class }
  let a := { a with conf_flat := bump label yhat_f a.conf_flat }
  { a with conf_hier := bump label yhat_h a.conf_hier }

/-- Loop state of `run_eval`: the counter `n` (incremented before the `try`
block, i.e. for every consumed sample) and the accumulators. -/
structure EvalState where
  n : Nat
  agg : Agg
deriving DecidableEq, Repr

/-- Processing of one consumed sample: `n += 1`, then the `try` body; when
the classifier raised, the `except` branch logs and `continue`s, leaving
the accumulators untouched. -/
def step (s : EvalState) (x : Sample) : EvalState :=
  let s' : EvalState := { s with n := s.n + 1 }
  match x.classify with
  | .error _ => s'
  | .ok o => { s' with agg := applyOk s'.agg x.label o }

/-- The `for iq, label in data_iterator` loop with its
`if limit and n >= limit: break` guard (Python truthiness: the guard is
disabled when `limit == 0`). -/
def runLoop (limit : ℤ) : EvalState → List Sample → EvalState
  | s, [] => s
  | s, x :: rest =>
    if limit ≠ 0 ∧ (s.n : ℤ) ≥ limit then s
    else runLoop limit (step s x) rest

/-- Python `round`, banker's rounding: nearest integer, ties to even.
Computed on the reduced fraction `num/den` (`den > 0`): `f = ⌊x⌋` is the
floored quotient and `r = num − f·den` the remainder, so the fractional
part compares to `1/2` as `2·r` compares to `den`. -/
def pyRound (x : ℚ) : ℤ :=
  let f := x.num.fdiv x.den
  let r := x.num - f * x.den
  if 2 * r < x.den then f
  else if (x.den : ℤ) < 2 * r then f + 1
  else if f % 2 = 0 then f else f + 1

/-- `np.percentile`'s virtual index `h = q/100 * (n-1)` for `n` data points. -/
def vIdx (n : Nat) (q : ℚ) : ℚ := q * ((n : ℚ) - 1) / 100

/-- The lower bracketing index `⌊h⌋` of the virtual index. -/
def loIdx (n : Nat) (q : ℚ) : Nat := (⌊vIdx n q⌋).toNat

/-- The upper bracketing index `⌊h⌋ + 1`, clipped to the last position. -/
def hiIdx (n : Nat) (q : ℚ) : Nat := min (loIdx n q + 1) (n - 1)

/-- `np.percentile`'s linear interpolation on an already sorted list:
`a[⌊h⌋] + (h - ⌊h⌋) * (a[⌊h⌋+1] - a[⌊h⌋])` at the virtual index `h`. -/
def interpAt (ys : List ℚ) (q : ℚ) : ℚ :=
  ys.getD (loIdx ys.length q) 0 +
    (vIdx ys.length q - (loIdx ys.length q : ℚ)) *
      (ys.getD (hiIdx ys.length q) 0 - ys.getD (loIdx ys.length q) 0)

/-- `np.percentile(xs, q)` with the default linear interpolation: sort the
data, then interpolate at the virtual index. -/
def percentile (xs : List ℚ) (q : ℚ) : ℚ :=
  interpAt (List.insertionSort (· ≤ ·) xs) q

/-- Latency percentile summary for one variant. -/
structure PStats where
  p50 : ℚ
  p95 : ℚ
deriving DecidableEq, Repr

/-- `{"p50": np.percentile(xs,50) if xs else 0.0, "p95": ... if xs else 0.0}`:
an empty latency list yields 0.0 for both percentiles. -/
def latencyStats (xs : List ℚ) : PStats :=
  if xs.isEmpty then ⟨0, 0⟩ else ⟨percentile xs 50, percentile xs 95⟩

/-- The key order used by `sorted(per_class.items())`: compare entries by
their label, Python string comparison. -/
def pcLE (p q : String × Tally) : Prop := strLe p.1 q.1 = true

instance : DecidableRel pcLE := fun _ _ => instDecidableEqBool _ _

/-- The JSON artifact assembled at the end of `run_eval`. -/
structure Artifact where
  n : Nat
  per_class : List (String × Tally)
  latency_flat : PStats
  latency_hier : PStats
  confusion_flat : List (String × List (String × Nat))
  confusion_hier : List (String × List (String × Nat))
deriving DecidableEq, Repr

/-- The `out = {...}` dict of `run_eval`:
`"per_class": [{"label": k, **v} for k, v in sorted(per_class.items())]`
sorts the tally entries by label (Python string order = lexicographic by
code point, as on Lean strings), and the latency block applies the
percentile summary to each latency list. -/
def mkArtifact (s : EvalState) : Artifact :=
  { n := s.n
    per_class := List.insertionSort pcLE s.agg.per_class
    latency_flat := latencyStats s.agg.lat_flat
    latency_hier := latencyStats s.agg.lat_hier
    confusion_flat := s.agg.conf_flat
    confusion_hier := s.agg.conf_hier }

/-- `run_eval`: fold the loop over the sample stream starting from `n = 0`
and empty accumulators, then build the artifact. -/
def run_eval (limit : ℤ) (samples : List Sample) : Artifact :=
  mkArtifact (runLoop limit ⟨0, initAgg⟩ samples)

/-! ### SNR-stratified table (`render_hvf_tables.py`, `main` lines 43–53) -/

/-- One row of the optional `"records"` array of the artifact: the fields
the SNR table reads.  `snr_db` is `none` when the record lacks the key, in
which case the Python subscript `r['snr_db']` raises `KeyError`. -/
structure SnrRecord where
  snr_db : Option ℚ
  flat_correct : Bool
  hier_correct : Bool
deriving DecidableEq, Repr

/-- One entry of `snr_data`:
`{'snr': ..., 'flat_wins': ..., 'hier_wins': ..., 'adv': ..., 'n': ...}`. -/
structure SnrBucket where
  snr : ℤ
  flat_wins : Nat
  hier_wins : Nat
  adv : ℤ
  n : Nat
deriving DecidableEq, Repr

/-- `int(round(r['snr_db']))` when the key is present. -/
def snrOf (r : SnrRecord) : Option ℤ := r.snr_db.map pyRound

/-- The sorted de-duplicated SNR keys:
`sorted({int(round(r['snr_db'])) for r in records})`. -/
def snrKeysSorted (rs : List SnrRecord) : List ℤ :=
  List.insertionSort (· ≤ ·) (rs.filterMap snrOf).dedup

/-- The bucket built for one integer SNR key: the three comprehension sums
over `records` filtered by `int(round(r['snr_db'])) == snr`, with
`'adv': stats['hier_wins'] - stats['flat_wins']`. -/
def mkBucket (rs : List SnrRecord) (snr : ℤ) : SnrBucket :=
  let inB := rs.filter (fun r => snrOf r = some snr)
  let fw := (inB.filter (fun r => r.flat_correct && !r.hier_correct)).length
  let hw := (inB.filter (fun r => r.hier_correct && !r.flat_correct)).length
  { snr := snr, flat_wins := fw, hier_wins := hw, adv := (hw : ℤ) - (fw : ℤ), n := inB.length }

/-- The `snr_data` computation: `[]` when `data.get("records")` is falsy
(absent or empty); otherwise every record is subscripted with `r['snr_db']`,
which raises `KeyError` as soon as one record lacks the key; when all carry
it, the bucket list is built over the sorted key set. -/
def snrTable (records : Option (List SnrRecord)) : Except String (List SnrBucket) :=
  match records with
  | none => .ok []
  | some rs =>
    if rs.isEmpty then .ok []
    else if rs.all (fun r => r.snr_db.isSome) then
      .ok ((snrKeysSorted rs).map (mkBucket rs))
    else .error "KeyError: snr_db"

/-! ### Derived notions used to state the properties -/

/-- A convenient constructor: a successfully classified sample with
hierarchical prediction `yh`, optional flat breadcrumb `bp`, no latency
metadata. -/
def sampleOk (label yh : String) (bp : Option String) : Sample :=
  ⟨label, .ok ⟨yh, ⟨bp, none, none, none⟩⟩⟩

/-- The accumulator part of `step`: identity when the classifier raised,
the `try`-body update otherwise. -/
def okStep (a : Agg) (x : Sample) : Agg :=
  match x.out? with
  | some o => applyOk a x.label o
  | none => a

/-- The prefix of the source that the loop actually processes: everything
when `limit == 0` (the guard is disabled by Python truthiness), else the
first `limit` samples. -/
def consumed (limit : ℤ) (samples : List Sample) : List Sample :=
  if limit = 0 then samples else samples.take limit.toNat

/-- All artifact fields except the sample counter `n`. -/
def stripN (a : Artifact) :
    List (String × Tally) × PStats × PStats ×
      List (String × List (String × Nat)) × List (String × List (String × Nat)) :=
  (a.per_class, a.latency_flat, a.latency_hier, a.confusion_flat, a.confusion_hier)

/-- Number of samples satisfying a Boolean predicate. -/
def cnt (p : Sample → Bool) (l : List Sample) : Nat := (l.filter p).length

/-- Successfully processed sample with true label `c`. -/
def pObs (c : String) (x : Sample) : Bool :=
  x.out?.isSome && decide (x.label = c)

/-- Successfully processed sample of class `c` whose flat prediction is correct. -/
def pFlatC (c : String) (x : Sample) : Bool :=
  match x.out? with
  | some o => decide (x.label = c) && decide (flatOf o = c)
  | none => false

/-- Successfully processed sample of class `c` whose flat prediction is wrong. -/
def pFlatInc (c : String) (x : Sample) : Bool :=
  match x.out? with
  | some o => decide (x.label = c) && !decide (flatOf o = c)
  | none => false

/-- Successfully processed sample of class `c` whose hierarchical prediction is correct. -/
def pHierC (c : String) (x : Sample) : Bool :=
  match x.out? with
  | some o => decide (x.label = c) && decide (o.yhat_h = c)
  | none => false

/-- Hier win: hier correct, flat wrong. -/
def pHW (c : String) (x : Sample) : Bool :=
  match x.out? with
  | some o => decide (x.label = c) && (decide (o.yhat_h = c) && !decide (flatOf o = c))
  | none => false

/-- Flat win: flat correct, hier wrong. -/
def pFW (c : String) (x : Sample) : Bool :=
  match x.out? with
  | some o => decide (x.label = c) && (decide (flatOf o = c) && !decide (o.yhat_h = c))
  | none => false

/-- Tie: both predictions correct. -/
def pTie (c : String) (x : Sample) : Bool :=
  match x.out? with
  | some o => decide (x.label = c) && (decide (flatOf o = c) && decide (o.yhat_h = c))
  | none => false

/-- Sum of the counts of a confusion-matrix row (`0` for a missing row). -/
def rowSumO : Option (List (String × Nat)) → Nat
  | none => 0
  | some row => (row.map Prod.snd).sum

/-- The count stored in a confusion matrix for the pair `(y, yhat)`
(`0` when the entry has not been created yet). -/
def entry (y yhat : String) (m : List (String × List (String × Nat))) : Nat :=
  (lookupT yhat ((lookupT y m).getD [])).getD 0

/-- Concrete three-sample scenario from the spec's end-to-end test:
(true=BPSK, flat=BPSK, hier=BPSK), (true=QPSK, flat=BPSK, hier=QPSK),
(true=QPSK, flat=QPSK, hier=BPSK). -/
def scenario3 : List Sample :=
  [sampleOk "BPSK" "BPSK" none, sampleOk "QPSK" "QPSK" (some "BPSK"),
    sampleOk "QPSK" "BPSK" (some "QPSK")]

/-- Concrete records list used to exercise the SNR table: SNRs 2.5 dB and
1.5 dB, both rounding to 2 by banker's rounding. -/
def wRecs : List SnrRecord :=
  [⟨some (mkRat 5 2), true, false⟩, ⟨some (mkRat 3 2), false, true⟩]

/-! ### Loop structure lemmas -/

theorem step_n (s : EvalState) (x : Sample) : (step s x).n = s.n + 1 := by
  rcases x with ⟨label, cl⟩
  cases cl <;> rfl

theorem step_agg (s : EvalState) (x : Sample) : (step s x).agg = okStep s.agg x := by
  rcases x with ⟨label, cl⟩
  cases cl <;> rfl

theorem foldl_step_n (l : List Sample) : ∀ s : EvalState,
    (List.foldl step s l).n = s.n + l.length := by
  induction l with
  | nil => intro s; simp
  | cons x l ih =>
    intro s
    simp only [List.foldl_cons, List.length_cons, ih, step_n]
    omega

theorem foldl_step_agg (l : List Sample) : ∀ s : EvalState,
    (List.foldl step s l).agg = List.foldl okStep s.agg l := by
  induction l with
  | nil => intro s; rfl
  | cons x l ih =>
    intro s
    simp only [List.foldl_cons, ih, step_agg]

theorem okStep_of_not_ok {x : Sample} (h : x.isOk = false) (a : Agg) : okStep a x = a := by
  unfold okStep
  unfold Sample.isOk at h
  rcases hx : x.out? with _ | o
  · rfl
  · rw [hx] at h; simp at h

theorem foldl_okStep_filter (l : List Sample) : ∀ a : Agg,
    List.foldl okStep a l = List.foldl okStep a (l.filter Sample.isOk) := by
  induction l with
  | nil => intro a; rfl
  | cons x l ih =>
    intro a
    rcases hx : x.isOk with _ | _
    · simp only [List.foldl_cons, List.filter_cons, hx, okStep_of_not_ok hx]
      simp [ih]
    · simp only [List.foldl_cons, List.filter_cons, hx]
      simp [ih]

theorem runLoop_eq (limit : ℤ) : ∀ (samples : List Sample) (s : EvalState),
    runLoop limit s samples =
      List.foldl step s (if limit = 0 then samples else samples.take (limit - s.n).toNat) := by
  intro samples
  induction samples with
  | nil => intro s; rcases h : (if limit = 0 then ([] : List Sample) else List.take (limit - s.n).toNat []) with _ | _ <;> simp_all [runLoop]
  | cons x rest ih =>
    intro s
    by_cases hl : limit = 0
    · subst hl
      simp only [runLoop, if_pos, ne_eq, not_true_eq_false, false_and, if_neg, not_false_iff]
      rw [ih (step s x)]
      simp
    · by_cases hb : (s.n : ℤ) ≥ limit
      · have ht : (limit - (s.n : ℤ)).toNat = 0 := by omega
        simp only [runLoop, if_neg hl, ht, List.take_zero, List.foldl_nil]
        rw [if_pos ⟨hl, hb⟩]
      · have ht : (limit - (s.n : ℤ)).toNat = (limit - ((s.n : ℤ) + 1)).toNat + 1 := by omega
        simp only [runLoop, if_neg hl, ht, List.take_succ_cons, List.foldl_cons]
        rw [if_neg (by tauto)]
        rw [ih (step s x)]
        simp only [if_neg hl, step_n]
        norm_num

theorem run_eval_eq (limit : ℤ) (samples : List Sample) :
    run_eval limit samples = mkArtifact (List.foldl step ⟨0, initAgg⟩ (consumed limit samples)) := by
  unfold run_eval consumed
  rw [runLoop_eq]
  norm_num

theorem run_eval_n (limit : ℤ) (samples : List Sample) :
    (run_eval limit samples).n = (consumed limit samples).length := by
  rw [run_eval_eq]
  show (List.foldl step ⟨0, initAgg⟩ (consumed limit samples)).n = _
  rw [foldl_step_n]
  simp

theorem run_eval_agg (limit : ℤ) (samples : List Sample) :
    run_eval limit samples =
      mkArtifact ⟨(consumed limit samples).length,
        List.foldl okStep initAgg (consumed limit samples)⟩ := by
  rw [run_eval_eq]
  have h1 := foldl_step_n (consumed limit samples) ⟨0, initAgg⟩
  have h2 := foldl_step_agg (consumed limit samples) ⟨0, initAgg⟩
  rcases hs : List.foldl step ⟨0, initAgg⟩ (consumed limit samples) with ⟨n, agg⟩
  rw [hs] at h1 h2
  simp only at h1 h2
  rw [h1, h2]
  norm_num

/-! ### Claim theorems: error handling, defaults, scenarios, limit -/

/-- C1 (counterexample): a run over a single sample whose classification
raises is skipped by the tallies (`per_class` stays empty) but the output
field `n` is `1`, not `0`: the failed sample IS counted in `n`, contrary to
the claim that `n` equals the number of successfully processed samples. -/
theorem error_sample_counted_in_n :
    (run_eval 0 [⟨"BPSK", Except.error "classifier exception"⟩]).n = 1 ∧
    (run_eval 0 [⟨"BPSK", Except.error "classifier exception"⟩]).per_class = [] :=
  ⟨rfl, rfl⟩

/-- C1 (amended): when processing a sample raises, `run_eval` catches the
exception, leaves every accumulator untouched (the sample contributes to no
tally, latency list or confusion matrix) and continues with the next
sample; but the counter `n` is incremented before the `try` block, so `n`
counts every consumed sample — with the limit disabled, `n` is the length
of the whole input and all other artifact fields equal those of the run
over only the successfully processed samples. -/
theorem error_skipped_not_aborted_but_counted :
    (∀ (s : EvalState) (label e : String),
      step s ⟨label, .error e⟩ = { s with n := s.n + 1 }) ∧
    (∀ samples : List Sample,
      (run_eval 0 samples).n = samples.length ∧
      stripN (run_eval 0 samples) = stripN (run_eval 0 (samples.filter Sample.isOk))) := by
  refine ⟨fun s label e => rfl, fun samples => ⟨?_, ?_⟩⟩
  · rw [run_eval_n]
    unfold consumed
    simp
  · unfold stripN
    rw [run_eval_agg, run_eval_agg]
    unfold consumed
    rw [if_pos rfl, if_pos rfl]
    have h1 : List.foldl okStep initAgg samples
        = List.foldl okStep initAgg (samples.filter Sample.isOk) := by
      rw [foldl_okStep_filter]
    simp [mkArtifact, h1]

/-- C2: the tally update is the pure function of the pair
(flat correct?, hier correct?): `(true,true)` increments `ties` (and both
correctness counters), `(true,false)` increments `flat_wins`,
`(false,true)` increments `hier_wins`, `(false,false)` increments none of
the win/tie counters; `run_eval` applies it with exactly those two
booleans; and the three-sample scenario yields `n = 3`,
`per_class["BPSK"] = ⟨1,1,0,0,1⟩` and `per_class["QPSK"] = ⟨1,1,1,1,0⟩`. -/
theorem tally_pure_function_and_scenario :
    (∀ t : Tally,
      tallyUpdate true true t =
        { t with flat_correct := t.flat_correct + 1, hier_correct := t.hier_correct + 1,
                 ties := t.ties + 1 } ∧
      tallyUpdate true false t =
        { t with flat_correct := t.flat_correct + 1, flat_wins := t.flat_wins + 1 } ∧
      tallyUpdate false true t =
        { t with hier_correct := t.hier_correct + 1, hier_wins := t.hier_wins + 1 } ∧
      tallyUpdate false false t = t) ∧
    (∀ (a : Agg) (label : String) (o : ClassifyOut),
      (applyOk a label o).per_class =
        updatePerClass label (decide (flatOf o = label)) (decide (o.yhat_h = label))
          a.per_class) ∧
    (run_eval 0 [sampleOk "BPSK" "BPSK" none, sampleOk "QPSK" "QPSK" (some "BPSK"),
        sampleOk "QPSK" "BPSK" (some "QPSK")]).n = 3 ∧
    (run_eval 0 [sampleOk "BPSK" "BPSK" none, sampleOk "QPSK" "QPSK" (some "BPSK"),
        sampleOk "QPSK" "BPSK" (some "QPSK")]).per_class =
      [("BPSK", ⟨1, 1, 0, 0, 1⟩), ("QPSK", ⟨1, 1, 1, 1, 0⟩)] :=
  ⟨fun _ => ⟨rfl, rfl, rfl, rfl⟩, fun _ _ _ => rfl, by decide, by decide⟩

/-- C5: on the empty sample sequence the artifact has `n = 0`, empty
`per_class`, empty confusion matrices and `0.0/0.0` latency percentiles
for both variants; in general the percentile summary of an empty latency
list is exactly `(0, 0)` rather than failing. -/
theorem empty_run_artifact (limit : ℤ) :
    run_eval limit [] = ⟨0, [], ⟨0, 0⟩, ⟨0, 0⟩, [], []⟩ ∧
    latencyStats [] = ⟨0, 0⟩ :=
  ⟨rfl, rfl⟩

/-- C7: a sample whose metadata lacks `base_pred`, `lat_base_ms`,
`lat_total_ms` and `used_specialized` is recorded without failing: the flat
prediction defaults to the hierarchical one, both latencies default to 0,
`used_specialized` defaults to `false`, and the sample is fully processed
(counted in `n`, tallied, confusion matrices bumped). -/
theorem missing_metadata_defaults (s : EvalState) (label yh : String) :
    flatOf ⟨yh, ⟨none, none, none, none⟩⟩ = yh ∧
    latBaseOf ⟨yh, ⟨none, none, none, none⟩⟩ = 0 ∧
    latTotalOf ⟨yh, ⟨none, none, none, none⟩⟩ = 0 ∧
    usedSpecOf ⟨yh, ⟨none, none, none, none⟩⟩ = false ∧
    step s (sampleOk label yh none) =
      { n := s.n + 1,
        agg := { per_class := updatePerClass label (decide (yh = label)) (decide (yh = label))
                   s.agg.per_class,
                 lat_flat := s.agg.lat_flat ++ [0],
                 lat_hier := s.agg.lat_hier ++ [0],
                 conf_flat := bump label yh s.agg.conf_flat,
                 conf_hier := bump label yh s.agg.conf_hier } } :=
  ⟨rfl, rfl, rfl, rfl, rfl⟩

/-- C10: with a positive limit the loop stops before processing a sample
once `n` samples have been consumed, so the output `n` never exceeds the
limit; with `limit = 0` the bound check is disabled and the whole finite
source is consumed. -/
theorem limit_bounds (limit : ℤ) (samples : List Sample) :
    (0 < limit → ((run_eval limit samples).n : ℤ) ≤ limit) ∧
    (limit = 0 → (run_eval limit samples).n = samples.length) := by
  constructor
  · intro hp
    rw [run_eval_n]
    unfold consumed
    rw [if_neg (by omega)]
    have h := List.length_take_le limit.toNat samples
    omega
  · intro h0
    rw [run_eval_n]
    unfold consumed
    simp [h0]

/-- C10 witness: at limit 2 over a three-sample source, the output `n` is
bounded by 2. -/
theorem limit_bounds_witness :
    (0 : ℤ) < 2 ∧
    ((run_eval 2 [sampleOk "BPSK" "BPSK" none, sampleOk "QPSK" "QPSK" none,
        ⟨"FM", Except.error "boom"⟩]).n : ℤ) ≤ 2 :=
  ⟨by decide,
    (limit_bounds 2 [sampleOk "BPSK" "BPSK" none, sampleOk "QPSK" "QPSK" none,
      ⟨"FM", Except.error "boom"⟩]).1 (by decide)⟩

/-! ### Per-class tally characterization -/

theorem applyOk_per_class (a : Agg) (label : String) (o : ClassifyOut) :
    (applyOk a label o).per_class =
      updatePerClass label (decide (flatOf o = label)) (decide (o.yhat_h = label)) a.per_class :=
  rfl

theorem applyOk_conf_flat (a : Agg) (label : String) (o : ClassifyOut) :
    (applyOk a label o).conf_flat = bump label (flatOf o) a.conf_flat := rfl

theorem applyOk_conf_hier (a : Agg) (label : String) (o : ClassifyOut) :
    (applyOk a label o).conf_hier = bump label o.yhat_h a.conf_hier := rfl

theorem tallyUpdate_fields (f h : Bool) (t : Tally) :
    tallyUpdate f h t =
      ⟨t.flat_correct + (if f then 1 else 0),
       t.hier_correct + (if h then 1 else 0),
       t.hier_wins + (if h && !f then 1 else 0),
       t.flat_wins + (if f && !h then 1 else 0),
       t.ties + (if f && h then 1 else 0)⟩ := by
  cases f <;> cases h <;> simp [tallyUpdate]

theorem lookupT_updatePerClass_self (label : String) (f h : Bool) :
    ∀ pc : List (String × Tally),
      lookupT label (updatePerClass label f h pc) =
        some (tallyUpdate f h ((lookupT label pc).getD zeroTally)) := by
  intro pc
  induction pc with
  | nil => simp [updatePerClass, lookupT]
  | cons kt rest ih =>
    rcases kt with ⟨k, t⟩
    by_cases hk : k = label
    · subst hk
      simp [updatePerClass, lookupT]
    · simp [updatePerClass, lookupT, hk, ih]

theorem lookupT_updatePerClass_ne {c label : String} (hne : c ≠ label) (f h : Bool) :
    ∀ pc : List (String × Tally),
      lookupT c (updatePerClass label f h pc) = lookupT c pc := by
  intro pc
  induction pc with
  | nil => simp [updatePerClass, lookupT, Ne.symm hne]
  | cons kt rest ih =>
    rcases kt with ⟨k, t⟩
    by_cases hk : k = label
    · subst hk
      simp [updatePerClass, lookupT, Ne.symm hne]
    · by_cases hkc : k = c <;> simp [updatePerClass, lookupT, hk, hkc, ih, hne]

theorem cnt_concat (p : Sample → Bool) (l : List Sample) (x : Sample) :
    cnt p (l ++ [x]) = cnt p l + (if p x = true then 1 else 0) := by
  unfold cnt
  rw [List.filter_append]
  cases hp : p x <;> simp [List.filter_cons, hp]

theorem cnt_le_of_imp {p q : Sample → Bool} (hpq : ∀ x, p x = true → q x = true) :
    ∀ l, cnt p l ≤ cnt q l := by
  intro l
  induction l with
  | nil => simp [cnt]
  | cons x l ih =>
    unfold cnt at *
    cases hp : p x
    · cases hq : q x <;> simp [List.filter_cons, hp, hq] <;> omega
    · rw [List.filter_cons, List.filter_cons, hp, hpq x hp]
      simpa using ih

theorem pObs_err {x : Sample} (hx : x.out? = none) (c : String) : pObs c x = false := by
  simp [pObs, hx]

theorem pFlatC_err {x : Sample} (hx : x.out? = none) (c : String) : pFlatC c x = false := by
  simp [pFlatC, hx]

theorem pFlatInc_err {x : Sample} (hx : x.out? = none) (c : String) : pFlatInc c x = false := by
  simp [pFlatInc, hx]

theorem pHierC_err {x : Sample} (hx : x.out? = none) (c : String) : pHierC c x = false := by
  simp [pHierC, hx]

theorem pHW_err {x : Sample} (hx : x.out? = none) (c : String) : pHW c x = false := by
  simp [pHW, hx]

theorem pFW_err {x : Sample} (hx : x.out? = none) (c : String) : pFW c x = false := by
  simp [pFW, hx]

theorem pTie_err {x : Sample} (hx : x.out? = none) (c : String) : pTie c x = false := by
  simp [pTie, hx]

theorem pObs_ok {x : Sample} {o : ClassifyOut} (hx : x.out? = some o) (c : String) :
    pObs c x = decide (x.label = c) := by
  simp [pObs, hx]

theorem pFlatC_ok {x : Sample} {o : ClassifyOut} (hx : x.out? = some o) (c : String) :
    pFlatC c x = (decide (x.label = c) && decide (flatOf o = c)) := by
  simp only [pFlatC, hx]

theorem pFlatInc_ok {x : Sample} {o : ClassifyOut} (hx : x.out? = some o) (c : String) :
    pFlatInc c x = (decide (x.label = c) && !decide (flatOf o = c)) := by
  simp only [pFlatInc, hx]

theorem pHierC_ok {x : Sample} {o : ClassifyOut} (hx : x.out? = some o) (c : String) :
    pHierC c x = (decide (x.label = c) && decide (o.yhat_h = c)) := by
  simp only [pHierC, hx]

theorem pHW_ok {x : Sample} {o : ClassifyOut} (hx : x.out? = some o) (c : String) :
    pHW c x = (decide (x.label = c) && (decide (o.yhat_h = c) && !decide (flatOf o = c))) := by
  simp only [pHW, hx]

theorem pFW_ok {x : Sample} {o : ClassifyOut} (hx : x.out? = some o) (c : String) :
    pFW c x = (decide (x.label = c) && (decide (flatOf o = c) && !decide (o.yhat_h = c))) := by
  simp only [pFW, hx]

theorem pTie_ok {x : Sample} {o : ClassifyOut} (hx : x.out? = some o) (c : String) :
    pTie c x = (decide (x.label = c) && (decide (flatOf o = c) && decide (o.yhat_h = c))) := by
  simp only [pTie, hx]

theorem pFlatC_imp_pObs (c : String) : ∀ x, pFlatC c x = true → pObs c x = true := by
  intro x
  rcases hx : x.out? with _ | o
  · simp [pFlatC_err hx]
  · simp [pFlatC_ok hx, pObs_ok hx]
    tauto

theorem pHierC_imp_pObs (c : String) : ∀ x, pHierC c x = true → pObs c x = true := by
  intro x
  rcases hx : x.out? with _ | o
  · simp [pHierC_err hx]
  · simp [pHierC_ok hx, pObs_ok hx]
    tauto

theorem pHW_imp_pObs (c : String) : ∀ x, pHW c x = true → pObs c x = true := by
  intro x
  rcases hx : x.out? with _ | o
  · simp [pHW_err hx]
  · simp [pHW_ok hx, pObs_ok hx]
    tauto

theorem pFW_imp_pObs (c : String) : ∀ x, pFW c x = true → pObs c x = true := by
  intro x
  rcases hx : x.out? with _ | o
  · simp [pFW_err hx]
  · simp [pFW_ok hx, pObs_ok hx]
    tauto

theorem pTie_imp_pObs (c : String) : ∀ x, pTie c x = true → pObs c x = true := by
  intro x
  rcases hx : x.out? with _ | o
  · simp [pTie_err hx]
  · simp [pTie_ok hx, pObs_ok hx]
    tauto

/-- The tally stored for label `c` after folding the per-sample updates is
exactly the vector of per-predicate counts (and no entry exists until a
sample of class `c` is successfully processed). -/
theorem perClass_char (c : String) (l : List Sample) :
    lookupT c (List.foldl okStep initAgg l).per_class =
      if cnt (pObs c) l = 0 then none
      else some ⟨cnt (pFlatC c) l, cnt (pHierC c) l, cnt (pHW c) l,
                 cnt (pFW c) l, cnt (pTie c) l⟩ := by
  induction l using List.reverseRecOn with
  | nil => simp [cnt, initAgg, lookupT]
  | append_singleton l x ih =>
    rw [List.foldl_append, List.foldl_cons, List.foldl_nil]
    rw [cnt_concat, cnt_concat, cnt_concat, cnt_concat, cnt_concat, cnt_concat]
    rcases hx : x.out? with _ | o
    · have hok : okStep (List.foldl okStep initAgg l) x = List.foldl okStep initAgg l := by
        unfold okStep
        rw [hx]
      rw [hok, ih]
      simp [pObs_err hx, pFlatC_err hx, pHierC_err hx, pHW_err hx, pFW_err hx, pTie_err hx]
    · have hok : okStep (List.foldl okStep initAgg l) x
          = applyOk (List.foldl okStep initAgg l) x.label o := by
        unfold okStep
        rw [hx]
      rw [hok, applyOk_per_class]
      by_cases hl : x.label = c
      · subst hl
        rw [lookupT_updatePerClass_self, ih]
        rw [pObs_ok hx, pFlatC_ok hx, pHierC_ok hx, pHW_ok hx, pFW_ok hx, pTie_ok hx]
        have hd : decide (x.label = x.label) = true := by simp
        rw [hd, if_pos rfl]
        by_cases h0 : cnt (pObs x.label) l = 0
        · have hfc : cnt (pFlatC x.label) l = 0 :=
            Nat.le_zero.mp (h0 ▸ cnt_le_of_imp (pFlatC_imp_pObs x.label) l)
          have hhc : cnt (pHierC x.label) l = 0 :=
            Nat.le_zero.mp (h0 ▸ cnt_le_of_imp (pHierC_imp_pObs x.label) l)
          have hhw : cnt (pHW x.label) l = 0 :=
            Nat.le_zero.mp (h0 ▸ cnt_le_of_imp (pHW_imp_pObs x.label) l)
          have hfw : cnt (pFW x.label) l = 0 :=
            Nat.le_zero.mp (h0 ▸ cnt_le_of_imp (pFW_imp_pObs x.label) l)
          have hti : cnt (pTie x.label) l = 0 :=
            Nat.le_zero.mp (h0 ▸ cnt_le_of_imp (pTie_imp_pObs x.label) l)
          rw [if_pos h0, if_neg (by omega)]
          rw [hfc, hhc, hhw, hfw, hti]
          rw [tallyUpdate_fields]
          by_cases hf : flatOf o = x.label <;> by_cases hh : o.yhat_h = x.label <;>
            simp [hf, hh, zeroTally]
        · rw [if_neg h0, if_neg (by omega)]
          rw [tallyUpdate_fields]
          by_cases hf : flatOf o = x.label <;> by_cases hh : o.yhat_h = x.label <;>
            simp [hf, hh]
      · rw [lookupT_updatePerClass_ne (fun hcc => hl hcc.symm), ih]
        have hlb : decide (x.label = c) = false := by simp [hl]
        rw [pObs_ok hx, pFlatC_ok hx, pHierC_ok hx, pHW_ok hx, pFW_ok hx, pTie_ok hx]
        simp [hlb]

theorem lookupT_eq_none_iff {α : Type} (c : String) :
    ∀ pc : List (String × α), lookupT c pc = none ↔ c ∉ pc.map Prod.fst := by
  intro pc
  induction pc with
  | nil => simp [lookupT]
  | cons kt rest ih =>
    rcases kt with ⟨k, v⟩
    by_cases hk : k = c
    · subst hk
      simp [lookupT]
    · have h2 : lookupT c ((k, v) :: rest) = lookupT c rest := by
        simp [lookupT, hk]
      rw [h2, ih, List.map_cons, List.mem_cons, not_or]
      exact ⟨fun hn => ⟨fun hck => hk hck.symm, hn⟩, fun hp => hp.2⟩

theorem updatePerClass_keys (label : String) (f h : Bool) :
    ∀ pc : List (String × Tally),
      (updatePerClass label f h pc).map Prod.fst =
        if (lookupT label pc).isSome then pc.map Prod.fst else pc.map Prod.fst ++ [label] := by
  intro pc
  induction pc with
  | nil => simp [updatePerClass, lookupT]
  | cons kt rest ih =>
    rcases kt with ⟨k, t⟩
    by_cases hk : k = label
    · subst hk
      simp [updatePerClass, lookupT]
    · have h1 : updatePerClass label f h ((k, t) :: rest) = (k, t) :: updatePerClass label f h rest := by
        simp [updatePerClass, hk]
      have h2 : lookupT label ((k, t) :: rest) = lookupT label rest := by
        simp [lookupT, hk]
      rw [h1, h2, List.map_cons, ih]
      split_ifs <;> simp

theorem perClass_keys_nodup : ∀ l : List Sample,
    ((List.foldl okStep initAgg l).per_class.map Prod.fst).Nodup := by
  intro l
  induction l using List.reverseRecOn with
  | nil => simp [initAgg]
  | append_singleton l x ih =>
    rw [List.foldl_append, List.foldl_cons, List.foldl_nil]
    rcases hx : x.out? with _ | o
    · have hok : okStep (List.foldl okStep initAgg l) x = List.foldl okStep initAgg l := by
        unfold okStep
        rw [hx]
      rw [hok]
      exact ih
    · have hok : okStep (List.foldl okStep initAgg l) x
          = applyOk (List.foldl okStep initAgg l) x.label o := by
        unfold okStep
        rw [hx]
      rw [hok, applyOk_per_class, updatePerClass_keys]
      split_ifs with hsome
      · exact ih
      · rw [List.nodup_append]
        refine ⟨ih, List.nodup_singleton _, ?_⟩
        have hnone : lookupT x.label (List.foldl okStep initAgg l).per_class = none := by
          rcases hlk : lookupT x.label (List.foldl okStep initAgg l).per_class with _ | v
          · rfl
          · rw [hlk] at hsome
            simp at hsome
        intro a ha hb
        rcases List.mem_singleton.mp hb with rfl
        exact (lookupT_eq_none_iff _ _).mp hnone ha

theorem lookupT_of_mem : ∀ {pc : List (String × Tally)},
    (pc.map Prod.fst).Nodup → ∀ {c : String} {t : Tally}, (c, t) ∈ pc → lookupT c pc = some t := by
  intro pc
  induction pc with
  | nil => intro _ c t hmem; cases hmem
  | cons kt rest ih =>
    rcases kt with ⟨k, v⟩
    intro hnd c t hmem
    rw [List.map_cons, List.nodup_cons] at hnd
    rcases List.mem_cons.mp hmem with heq | hmem'
    · cases heq
      simp [lookupT]
    · have hk : k ≠ c := by
        intro hkc
        subst hkc
        exact hnd.1 (List.mem_map.mpr ⟨(k, t), hmem', rfl⟩)
      have h2 : lookupT c ((k, v) :: rest) = lookupT c rest := by
        simp [lookupT, hk]
      rw [h2]
      exact ih hnd.2 hmem'

theorem cnt_cons (p : Sample → Bool) (x : Sample) (l : List Sample) :
    cnt p (x :: l) = (if p x = true then 1 else 0) + cnt p l := by
  unfold cnt
  rw [List.filter_cons]
  cases hp : p x
  · simp
  · simp [Nat.add_comm]

theorem wins_pointwise (c : String) (x : Sample) :
    (if pHW c x = true then 1 else 0) + (if pFW c x = true then 1 else 0) +
      (if pTie c x = true then 1 else 0) ≤ (if pObs c x = true then 1 else 0) := by
  rcases hx : x.out? with _ | o
  · simp [pHW_err hx, pFW_err hx, pTie_err hx, pObs_err hx]
  · rw [pHW_ok hx, pFW_ok hx, pTie_ok hx, pObs_ok hx]
    by_cases hl : x.label = c <;> by_cases hf : flatOf o = c <;> by_cases hh : o.yhat_h = c <;>
      simp [hl, hf, hh]

theorem cnt_wins_le (c : String) : ∀ l : List Sample,
    cnt (pHW c) l + cnt (pFW c) l + cnt (pTie c) l ≤ cnt (pObs c) l := by
  intro l
  induction l with
  | nil => simp [cnt]
  | cons x l ih =>
    rw [cnt_cons, cnt_cons, cnt_cons, cnt_cons]
    have := wins_pointwise c x
    omega

theorem flat_pointwise (c : String) (x : Sample) :
    (if pFlatC c x = true then 1 else 0) + (if pFlatInc c x = true then 1 else 0) =
      (if pObs c x = true then 1 else 0) := by
  rcases hx : x.out? with _ | o
  · simp [pFlatC_err hx, pFlatInc_err hx, pObs_err hx]
  · rw [pFlatC_ok hx, pFlatInc_ok hx, pObs_ok hx]
    by_cases hl : x.label = c <;> by_cases hf : flatOf o = c <;> simp [hl, hf]

theorem cnt_flat_partition (c : String) : ∀ l : List Sample,
    cnt (pFlatC c) l + cnt (pFlatInc c) l = cnt (pObs c) l := by
  intro l
  induction l with
  | nil => simp [cnt]
  | cons x l ih =>
    rw [cnt_cons, cnt_cons, cnt_cons]
    have := flat_pointwise c x
    omega

/-- C3: for every input sequence and observed class label, the final tally
satisfies `hier_wins + flat_wins + ties ≤` (number of successfully
processed samples of that label), and `flat_correct` plus the number of
samples of that label whose flat prediction was wrong equals that total
(the remainder of the win/tie sum being the samples where both predictions
are wrong). -/
theorem per_class_invariants (limit : ℤ) (samples : List Sample) (c : String) (t : Tally)
    (hmem : (c, t) ∈ (run_eval limit samples).per_class) :
    t.hier_wins + t.flat_wins + t.ties ≤ cnt (pObs c) (consumed limit samples) ∧
    t.flat_correct + cnt (pFlatInc c) (consumed limit samples)
      = cnt (pObs c) (consumed limit samples) := by
  have hmem' : (c, t) ∈ (List.foldl okStep initAgg (consumed limit samples)).per_class := by
    rw [run_eval_agg] at hmem
    exact (List.perm_insertionSort pcLE _).subset hmem
  have hlk := lookupT_of_mem (perClass_keys_nodup (consumed limit samples)) hmem'
  rw [perClass_char] at hlk
  by_cases h0 : cnt (pObs c) (consumed limit samples) = 0
  · rw [if_pos h0] at hlk
    cases hlk
  · rw [if_neg h0] at hlk
    injection hlk with hlk
    subst hlk
    constructor
    · simpa using cnt_wins_le c (consumed limit samples)
    · simpa using cnt_flat_partition c (consumed limit samples)

/-- C3 witness: in the three-sample scenario, the QPSK tally `⟨1,1,1,1,0⟩`
satisfies both invariants. -/
theorem per_class_invariants_witness :
    ("QPSK", (⟨1, 1, 1, 1, 0⟩ : Tally)) ∈ (run_eval 0 scenario3).per_class ∧
    ((1 : Nat) + 1 + 0 ≤ cnt (pObs "QPSK") (consumed 0 scenario3) ∧
     (1 : Nat) + cnt (pFlatInc "QPSK") (consumed 0 scenario3)
       = cnt (pObs "QPSK") (consumed 0 scenario3)) :=
  ⟨by decide, per_class_invariants 0 scenario3 "QPSK" ⟨1, 1, 1, 1, 0⟩ (by decide)⟩

/-! ### Confusion matrices -/

theorem bumpRow_sum (yhat : String) : ∀ row : List (String × Nat),
    ((bumpRow yhat row).map Prod.snd).sum = (row.map Prod.snd).sum + 1 := by
  intro row
  induction row with
  | nil => simp [bumpRow]
  | cons kv rest ih =>
    rcases kv with ⟨k, v⟩
    by_cases hk : k = yhat
    · subst hk
      simp [bumpRow]
      omega
    · simp [bumpRow, hk, ih]
      omega

theorem lookupT_bump_self (y yhat : String) : ∀ m : List (String × List (String × Nat)),
    lookupT y (bump y yhat m) = some (bumpRow yhat ((lookupT y m).getD [])) := by
  intro m
  induction m with
  | nil => simp [bump, lookupT]
  | cons kr rest ih =>
    rcases kr with ⟨k, row⟩
    by_cases hk : k = y
    · subst hk
      simp [bump, lookupT]
    · simp [bump, lookupT, hk, ih]

theorem lookupT_bump_ne {c y : String} (hne : c ≠ y) (yhat : String) :
    ∀ m : List (String × List (String × Nat)), lookupT c (bump y yhat m) = lookupT c m := by
  intro m
  induction m with
  | nil => simp [bump, lookupT, Ne.symm hne]
  | cons kr rest ih =>
    rcases kr with ⟨k, row⟩
    by_cases hk : k = y
    · subst hk
      simp [bump, lookupT, Ne.symm hne]
    · by_cases hkc : k = c <;> simp [bump, lookupT, hk, hkc, ih, hne]

theorem lookupT_bumpRow (k yhat : String) : ∀ row : List (String × Nat),
    lookupT k (bumpRow yhat row) =
      if k = yhat then some (((lookupT yhat row).getD 0) + 1) else lookupT k row := by
  intro row
  induction row with
  | nil =>
    by_cases hk : k = yhat
    · subst hk
      simp [bumpRow, lookupT]
    · simp [bumpRow, lookupT, hk, Ne.symm hk]
  | cons kv rest ih =>
    rcases kv with ⟨k', v⟩
    by_cases hk' : k' = yhat
    · subst hk'
      by_cases hk : k = k'
      · subst hk
        simp [bumpRow, lookupT]
      · have hky : ¬k' = k := fun h => hk h.symm
        simp [bumpRow, lookupT, hk, hky]
    · by_cases hkk : k' = k
      · subst hkk
        simp [bumpRow, lookupT, hk', ih]
      · simp [bumpRow, lookupT, hk', hkk, ih]

theorem entry_le_bump (y yhat c d : String) (m : List (String × List (String × Nat))) :
    entry c d m ≤ entry c d (bump y yhat m) := by
  by_cases hc : c = y
  · subst hc
    unfold entry
    rw [lookupT_bump_self, Option.getD_some, lookupT_bumpRow]
    by_cases hd : d = yhat
    · rw [if_pos hd]
      subst hd
      simp
    · rw [if_neg hd]
  · unfold entry
    rw [lookupT_bump_ne hc]

/-- Row sum and lazy-creation characterization for a confusion matrix
keyed by the sample's true label and bumped once per processed sample. -/
theorem conf_flat_char (c : String) : ∀ l : List Sample,
    rowSumO (lookupT c (List.foldl okStep initAgg l).conf_flat) = cnt (pObs c) l ∧
    (lookupT c (List.foldl okStep initAgg l).conf_flat = none ↔ cnt (pObs c) l = 0) := by
  intro l
  induction l using List.reverseRecOn with
  | nil => simp [cnt, initAgg, lookupT, rowSumO]
  | append_singleton l x ih =>
    rw [List.foldl_append, List.foldl_cons, List.foldl_nil, cnt_concat]
    rcases hx : x.out? with _ | o
    · have hok : okStep (List.foldl okStep initAgg l) x = List.foldl okStep initAgg l := by
        unfold okStep
        rw [hx]
      rw [hok]
      simp [pObs_err hx, ih]
    · have hok : okStep (List.foldl okStep initAgg l) x
          = applyOk (List.foldl okStep initAgg l) x.label o := by
        unfold okStep
        rw [hx]
      rw [hok, applyOk_conf_flat, pObs_ok hx]
      by_cases hl : x.label = c
      · subst hl
        rw [lookupT_bump_self]
        have hd : decide (x.label = x.label) = true := by simp
        rw [hd, if_pos rfl]
        constructor
        · rcases hlk : lookupT x.label (List.foldl okStep initAgg l).conf_flat with _ | row
          · rw [hlk] at ih
            simp only [rowSumO, Option.getD_none] at ih ⊢
            rw [bumpRow_sum]
            simp only [List.map_nil, List.sum_nil]
            omega
          · rw [hlk] at ih
            simp only [rowSumO, Option.getD_some] at ih ⊢
            rw [bumpRow_sum]
            omega
        · simp
      · rw [lookupT_bump_ne (fun hcc => hl hcc.symm)]
        have hlb : decide (x.label = c) = false := by simp [hl]
        rw [hlb]
        simpa using ih

/-- Same characterization for the hierarchical confusion matrix. -/
theorem conf_hier_char (c : String) : ∀ l : List Sample,
    rowSumO (lookupT c (List.foldl okStep initAgg l).conf_hier) = cnt (pObs c) l ∧
    (lookupT c (List.foldl okStep initAgg l).conf_hier = none ↔ cnt (pObs c) l = 0) := by
  intro l
  induction l using List.reverseRecOn with
  | nil => simp [cnt, initAgg, lookupT, rowSumO]
  | append_singleton l x ih =>
    rw [List.foldl_append, List.foldl_cons, List.foldl_nil, cnt_concat]
    rcases hx : x.out? with _ | o
    · have hok : okStep (List.foldl okStep initAgg l) x = List.foldl okStep initAgg l := by
        unfold okStep
        rw [hx]
      rw [hok]
      simp [pObs_err hx, ih]
    · have hok : okStep (List.foldl okStep initAgg l) x
          = applyOk (List.foldl okStep initAgg l) x.label o := by
        unfold okStep
        rw [hx]
      rw [hok, applyOk_conf_hier, pObs_ok hx]
      by_cases hl : x.label = c
      · subst hl
        rw [lookupT_bump_self]
        have hd : decide (x.label = x.label) = true := by simp
        rw [hd, if_pos rfl]
        constructor
        · rcases hlk : lookupT x.label (List.foldl okStep initAgg l).conf_hier with _ | row
          · rw [hlk] at ih
            simp only [rowSumO, Option.getD_none] at ih ⊢
            rw [bumpRow_sum]
            simp only [List.map_nil, List.sum_nil]
            omega
          · rw [hlk] at ih
            simp only [rowSumO, Option.getD_some] at ih ⊢
            rw [bumpRow_sum]
            omega
        · simp
      · rw [lookupT_bump_ne (fun hcc => hl hcc.symm)]
        have hlb : decide (x.label = c) = false := by simp [hl]
        rw [hlb]
        simpa using ih

/-- C4: in the artifact, each row of either confusion matrix sums to the
number of successfully processed samples with that true label; a row exists
exactly when such a sample has been seen (lazy creation); and a single loop
step never decreases any stored entry (monotone increments). -/
theorem confusion_row_sums (limit : ℤ) (samples : List Sample) (c : String) :
    rowSumO (lookupT c (run_eval limit samples).confusion_flat)
      = cnt (pObs c) (consumed limit samples) ∧
    rowSumO (lookupT c (run_eval limit samples).confusion_hier)
      = cnt (pObs c) (consumed limit samples) ∧
    (lookupT c (run_eval limit samples).confusion_flat = none ↔
      cnt (pObs c) (consumed limit samples) = 0) ∧
    (lookupT c (run_eval limit samples).confusion_hier = none ↔
      cnt (pObs c) (consumed limit samples) = 0) ∧
    (∀ (s : EvalState) (x : Sample) (y yhat : String),
      entry y yhat s.agg.conf_flat ≤ entry y yhat (step s x).agg.conf_flat ∧
      entry y yhat s.agg.conf_hier ≤ entry y yhat (step s x).agg.conf_hier) := by
  have hcf := conf_flat_char c (consumed limit samples)
  have hch := conf_hier_char c (consumed limit samples)
  have hart : run_eval limit samples =
      mkArtifact ⟨(consumed limit samples).length,
        List.foldl okStep initAgg (consumed limit samples)⟩ := run_eval_agg limit samples
  refine ⟨?_, ?_, ?_, ?_, ?_⟩
  · rw [hart]
    exact hcf.1
  · rw [hart]
    exact hch.1
  · rw [hart]
    exact hcf.2
  · rw [hart]
    exact hch.2
  · intro s x y yhat
    rw [step_agg]
    rcases hx : x.out? with _ | o
    · have hok : okStep s.agg x = s.agg := by
        unfold okStep
        rw [hx]
      rw [hok]
      exact ⟨le_refl _, le_refl _⟩
    · have hok : okStep s.agg x = applyOk s.agg x.label o := by
        unfold okStep
        rw [hx]
      rw [hok]
      constructor
      · exact entry_le_bump x.label (flatOf o) y yhat s.agg.conf_flat
      · exact entry_le_bump x.label o.yhat_h y yhat s.agg.conf_hier

/-! ### Sorting of per_class (C8) -/

theorem charListLe_total : ∀ as bs : List Char,
    charListLe as bs = true ∨ charListLe bs as = true := by
  intro as
  induction as with
  | nil => intro bs; left; rfl
  | cons a as ih =>
    intro bs
    cases bs with
    | nil => right; rfl
    | cons b bs =>
      rcases lt_trichotomy a b with h | h | h
      · left
        simp [charListLe, h]
      · subst h
        rcases ih bs with h2 | h2
        · left
          simpa [charListLe] using h2
        · right
          simpa [charListLe] using h2
      · right
        simp [charListLe, h]

theorem charListLe_trans : ∀ as bs cs : List Char,
    charListLe as bs = true → charListLe bs cs = true → charListLe as cs = true := by
  intro as
  induction as with
  | nil => intro bs cs _ _; rfl
  | cons a as ih =>
    intro bs cs h1 h2
    cases bs with
    | nil => simp [charListLe] at h1
    | cons b bs =>
      cases cs with
      | nil => simp [charListLe] at h2
      | cons c cs =>
        by_cases hab : a < b
        · by_cases hbc : b < c
          · simp [charListLe, lt_trans hab hbc]
          · by_cases hcb : c < b
            · simp [charListLe, hbc, hcb] at h2
            · have hbc2 : b = c := le_antisymm (not_lt.mp hcb) (not_lt.mp hbc)
              subst hbc2
              simp [charListLe, hab]
        · by_cases hba : b < a
          · simp [charListLe, hab, hba] at h1
          · have hab2 : a = b := le_antisymm (not_lt.mp hba) (not_lt.mp hab)
            subst hab2
            simp only [charListLe, lt_irrefl, if_neg, if_false] at h1
            by_cases hbc : a < c
            · simp [charListLe, hbc]
            · by_cases hcb : c < a
              · simp [charListLe, hbc, hcb] at h2
              · have hbc2 : a = c := le_antisymm (not_lt.mp hcb) (not_lt.mp hbc)
                subst hbc2
                simp only [charListLe, lt_irrefl, if_neg, if_false] at h2 ⊢
                exact ih bs cs h1 h2

instance : IsTotal (String × Tally) pcLE :=
  ⟨fun p q => charListLe_total p.1.data q.1.data⟩

instance : IsTrans (String × Tally) pcLE :=
  ⟨fun p q r h1 h2 => charListLe_trans p.1.data q.1.data r.1.data h1 h2⟩

/-- C8: in every artifact produced by `run_eval`, the `per_class` list is
sorted ascending by the label field (Python string order). -/
theorem per_class_sorted (limit : ℤ) (samples : List Sample) :
    List.Sorted pcLE (run_eval limit samples).per_class := by
  rw [run_eval_agg]
  exact List.sorted_insertionSort pcLE _

/-! ### SNR table properties (C6) -/

/-- C6 (counterexample): a records list containing a record without
`snr_db` makes the SNR-table construction raise `KeyError` (the record is
not silently excluded, and no table is produced). -/
theorem snr_missing_key_raises :
    snrTable (some [⟨none, true, false⟩]) = Except.error "KeyError: snr_db" ∧
    snrTable (some [⟨none, true, false⟩]) ≠ Except.ok [] :=
  ⟨rfl, by decide⟩

/-- C6 (amended): when every record carries `snr_db`, the SNR table groups
records by their SNR rounded to the nearest integer (ties to even, Python
`round`), emits buckets sorted ascending by the integer key, every bucket
has `adv = hier_wins − flat_wins` with wins counted by the two correctness
booleans, and each record lands in the bucket of its rounded SNR; when the
records field is absent the table is empty.  A record lacking `snr_db`
instead aborts the construction with a `KeyError`. -/
theorem snr_table_props (rs : List SnrRecord) (hall : ∀ r ∈ rs, (r.snr_db).isSome = true) :
    (rs ≠ [] → snrTable (some rs) = Except.ok ((snrKeysSorted rs).map (mkBucket rs))) ∧
    List.Sorted (fun b b' : SnrBucket => b.snr ≤ b'.snr) ((snrKeysSorted rs).map (mkBucket rs)) ∧
    (∀ b ∈ (snrKeysSorted rs).map (mkBucket rs),
      b.adv = (b.hier_wins : ℤ) - (b.flat_wins : ℤ) ∧
      b.flat_wins = ((rs.filter (fun r => snrOf r = some b.snr)).filter
          (fun r => r.flat_correct && !r.hier_correct)).length ∧
      b.hier_wins = ((rs.filter (fun r => snrOf r = some b.snr)).filter
          (fun r => r.hier_correct && !r.flat_correct)).length ∧
      b.n = (rs.filter (fun r => snrOf r = some b.snr)).length) ∧
    (∀ r ∈ rs, ∃ b ∈ (snrKeysSorted rs).map (mkBucket rs), snrOf r = some b.snr) ∧
    snrTable none = Except.ok [] := by
  refine ⟨?_, ?_, ?_, ?_, rfl⟩
  · intro hne
    simp only [snrTable]
    rw [if_neg (by simpa [List.isEmpty_iff] using hne), if_pos (List.all_eq_true.mpr hall)]
  · have hs : List.Sorted (· ≤ ·) (snrKeysSorted rs) := List.sorted_insertionSort _ _
    rw [List.Sorted, List.pairwise_map]
    exact hs
  · intro b hb
    rcases List.mem_map.mp hb with ⟨k, hk, rfl⟩
    exact ⟨rfl, rfl, rfl, rfl⟩
  · intro r hr
    have hsome := hall r hr
    rcases hsnr : r.snr_db with _ | q
    · rw [hsnr] at hsome
      simp at hsome
    · refine ⟨mkBucket rs (pyRound q), List.mem_map.mpr ⟨pyRound q, ?_, rfl⟩, ?_⟩
      · unfold snrKeysSorted
        have hmem : pyRound q ∈ (rs.filterMap snrOf).dedup :=
          List.mem_dedup.mpr (List.mem_filterMap.mpr ⟨r, hr, by simp [snrOf, hsnr]⟩)
        exact ((List.perm_insertionSort _ _).mem_iff).mpr hmem
      · simp [snrOf, hsnr, mkBucket]

/-- C6 witness: the two-record list with SNRs 2.5 and 1.5 (both rounding
to 2) satisfies every amended property. -/
theorem snr_table_props_witness :
    (∀ r ∈ wRecs, (r.snr_db).isSome = true) ∧
    ((wRecs ≠ [] → snrTable (some wRecs) = Except.ok ((snrKeysSorted wRecs).map (mkBucket wRecs))) ∧
     List.Sorted (fun b b' : SnrBucket => b.snr ≤ b'.snr) ((snrKeysSorted wRecs).map (mkBucket wRecs)) ∧
     (∀ b ∈ (snrKeysSorted wRecs).map (mkBucket wRecs),
       b.adv = (b.hier_wins : ℤ) - (b.flat_wins : ℤ) ∧
       b.flat_wins = ((wRecs.filter (fun r => snrOf r = some b.snr)).filter
           (fun r => r.flat_correct && !r.hier_correct)).length ∧
       b.hier_wins = ((wRecs.filter (fun r => snrOf r = some b.snr)).filter
           (fun r => r.hier_correct && !r.flat_correct)).length ∧
       b.n = (wRecs.filter (fun r => snrOf r = some b.snr)).length) ∧
     (∀ r ∈ wRecs, ∃ b ∈ (snrKeysSorted wRecs).map (mkBucket wRecs), snrOf r = some b.snr) ∧
     snrTable none = Except.ok []) :=
  ⟨by decide, snr_table_props wRecs (by decide)⟩

/-! ### Percentile monotonicity (C9) -/

theorem vIdx_nonneg {n : Nat} {q : ℚ} (hn : 1 ≤ n) (hq : 0 ≤ q) : 0 ≤ vIdx n q := by
  unfold vIdx
  have hn1 : (0 : ℚ) ≤ (n : ℚ) - 1 := by
    have : (1 : ℚ) ≤ (n : ℚ) := by exact_mod_cast hn
    linarith
  exact div_nonneg (mul_nonneg hq hn1) (by norm_num)

theorem vIdx_mono {n : Nat} {q1 q2 : ℚ} (hn : 1 ≤ n) (h12 : q1 ≤ q2) :
    vIdx n q1 ≤ vIdx n q2 := by
  unfold vIdx
  have hn1 : (0 : ℚ) ≤ (n : ℚ) - 1 := by
    have : (1 : ℚ) ≤ (n : ℚ) := by exact_mod_cast hn
    linarith
  exact div_le_div_of_nonneg_right (mul_le_mul_of_nonneg_right h12 hn1) (by norm_num)

theorem vIdx_le {n : Nat} {q : ℚ} (hn : 1 ≤ n) (hq0 : 0 ≤ q) (hq : q ≤ 100) :
    vIdx n q ≤ (n : ℚ) - 1 := by
  unfold vIdx
  have hn1 : (0 : ℚ) ≤ (n : ℚ) - 1 := by
    have : (1 : ℚ) ≤ (n : ℚ) := by exact_mod_cast hn
    linarith
  rw [div_le_iff (by norm_num : (0 : ℚ) < 100)]
  nlinarith

theorem loIdx_cast {n : Nat} {q : ℚ} (hn : 1 ≤ n) (hq : 0 ≤ q) :
    ((loIdx n q : Nat) : ℚ) = ((⌊vIdx n q⌋ : ℤ) : ℚ) := by
  unfold loIdx
  have h0 : 0 ≤ ⌊vIdx n q⌋ := Int.floor_nonneg.mpr (vIdx_nonneg hn hq)
  have h1 := Int.toNat_of_nonneg h0
  exact_mod_cast congrArg (fun z : ℤ => (z : ℚ)) h1

theorem loIdx_le_vIdx {n : Nat} {q : ℚ} (hn : 1 ≤ n) (hq : 0 ≤ q) :
    ((loIdx n q : Nat) : ℚ) ≤ vIdx n q := by
  rw [loIdx_cast hn hq]
  exact Int.floor_le _

theorem vIdx_lt_loIdx_add_one {n : Nat} {q : ℚ} (hn : 1 ≤ n) (hq : 0 ≤ q) :
    vIdx n q < ((loIdx n q : Nat) : ℚ) + 1 := by
  rw [loIdx_cast hn hq]
  exact Int.lt_floor_add_one _

theorem loIdx_lt {n : Nat} {q : ℚ} (hn : 1 ≤ n) (hq0 : 0 ≤ q) (hq : q ≤ 100) :
    loIdx n q < n := by
  unfold loIdx
  have h1 : ⌊vIdx n q⌋ ≤ ⌊(n : ℚ) - 1⌋ := Int.floor_le_floor (vIdx_le hn hq0 hq)
  have h2 : ((n : ℚ) - 1) = (((n : ℤ) - 1 : ℤ) : ℚ) := by push_cast; ring
  rw [h2, Int.floor_intCast] at h1
  omega

theorem loIdx_mono {n : Nat} {q1 q2 : ℚ} (hn : 1 ≤ n) (h12 : q1 ≤ q2) :
    loIdx n q1 ≤ loIdx n q2 :=
  Int.toNat_le_toNat (Int.floor_le_floor (vIdx_mono hn h12))

theorem sorted_getD_mono {ys : List ℚ} (hs : List.Sorted (fun a b : ℚ => a ≤ b) ys) {i j : Nat}
    (hij : i ≤ j) (hj : j < ys.length) : ys.getD i 0 ≤ ys.getD j 0 := by
  have hi : i < ys.length := lt_of_le_of_lt hij hj
  rw [List.getD_eq_getElem ys 0 hi, List.getD_eq_getElem ys 0 hj]
  have h := hs.rel_get_of_le (a := ⟨i, hi⟩) (b := ⟨j, hj⟩) (Fin.mk_le_mk.mpr hij)
  simpa [List.get_eq_getElem] using h

/-- Linear-interpolation percentile is monotone in the percentile rank on a
sorted non-empty data list. -/
theorem interpAt_mono {ys : List ℚ} (hs : List.Sorted (fun a b : ℚ => a ≤ b) ys) (hne : ys ≠ [])
    {q1 q2 : ℚ} (h0 : 0 ≤ q1) (h12 : q1 ≤ q2) (h100 : q2 ≤ 100) :
    interpAt ys q1 ≤ interpAt ys q2 := by
  have hn : 1 ≤ ys.length := List.length_pos.mpr hne
  have h02 : 0 ≤ q2 := le_trans h0 h12
  have h1001 : q1 ≤ 100 := le_trans h12 h100
  set n := ys.length with hndef
  have hi12 : loIdx n q1 ≤ loIdx n q2 := loIdx_mono hn h12
  have hi1n : loIdx n q1 < n := loIdx_lt hn h0 h1001
  have hi2n : loIdx n q2 < n := loIdx_lt hn h02 h100
  have hf10 : 0 ≤ vIdx n q1 - ((loIdx n q1 : Nat) : ℚ) := by
    have := loIdx_le_vIdx (n := n) (q := q1) hn h0
    linarith
  have hf11 : vIdx n q1 - ((loIdx n q1 : Nat) : ℚ) ≤ 1 := by
    have := vIdx_lt_loIdx_add_one (n := n) (q := q1) hn h0
    linarith
  have hf20 : 0 ≤ vIdx n q2 - ((loIdx n q2 : Nat) : ℚ) := by
    have := loIdx_le_vIdx (n := n) (q := q2) hn h02
    linarith
  have hv12 : vIdx n q1 ≤ vIdx n q2 := vIdx_mono hn h12
  have hhi1n : hiIdx n q1 < n := by
    unfold hiIdx
    omega
  have hhi2n : hiIdx n q2 < n := by
    unfold hiIdx
    omega
  have hlo1hi1 : ys.getD (loIdx n q1) 0 ≤ ys.getD (hiIdx n q1) 0 := by
    apply sorted_getD_mono hs ?_ hhi1n
    unfold hiIdx
    omega
  have hlo2hi2 : ys.getD (loIdx n q2) 0 ≤ ys.getD (hiIdx n q2) 0 := by
    apply sorted_getD_mono hs ?_ hhi2n
    unfold hiIdx
    omega
  unfold interpAt
  rw [← hndef]
  rcases Nat.lt_or_ge (loIdx n q1) (loIdx n q2) with hlt | hge
  · have hA : ys.getD (loIdx n q1) 0 + (vIdx n q1 - ((loIdx n q1 : Nat) : ℚ)) *
        (ys.getD (hiIdx n q1) 0 - ys.getD (loIdx n q1) 0) ≤ ys.getD (hiIdx n q1) 0 := by
      nlinarith [hf10, hf11, hlo1hi1]
    have hB : ys.getD (hiIdx n q1) 0 ≤ ys.getD (loIdx n q2) 0 := by
      apply sorted_getD_mono hs ?_ hi2n
      unfold hiIdx
      omega
    have hC : ys.getD (loIdx n q2) 0 ≤ ys.getD (loIdx n q2) 0 +
        (vIdx n q2 - ((loIdx n q2 : Nat) : ℚ)) *
          (ys.getD (hiIdx n q2) 0 - ys.getD (loIdx n q2) 0) := by
      nlinarith [hf20, hlo2hi2]
    linarith
  · have heq : loIdx n q1 = loIdx n q2 := le_antisymm hi12 hge
    have hhieq : hiIdx n q1 = hiIdx n q2 := by
      unfold hiIdx
      rw [heq]
    rw [heq, hhieq]
    have hd : (0 : ℚ) ≤ ys.getD (hiIdx n q2) 0 - ys.getD (loIdx n q2) 0 := by
      linarith [hlo2hi2]
    nlinarith [hv12, hd]

theorem percentile_mono {xs : List ℚ} (hne : xs ≠ []) {q1 q2 : ℚ}
    (h0 : 0 ≤ q1) (h12 : q1 ≤ q2) (h100 : q2 ≤ 100) :
    percentile xs q1 ≤ percentile xs q2 := by
  unfold percentile
  have hperm := List.perm_insertionSort (fun a b : ℚ => a ≤ b) xs
  have hne2 : List.insertionSort (fun a b : ℚ => a ≤ b) xs ≠ [] := by
    intro h
    rw [h] at hperm
    exact hne hperm.symm.eq_nil
  exact interpAt_mono (List.sorted_insertionSort _ _) hne2 h0 h12 h100

/-- C9: for every non-empty, non-constant latency list, the computed 95th
percentile is at least the computed 50th percentile (linear-interpolation
percentiles, applied independently to each variant's latency list). -/
theorem p95_ge_p50 (xs : List ℚ) (hne : xs ≠ [])
    (hnc : ∃ a ∈ xs, ∃ b ∈ xs, a ≠ b) :
    (latencyStats xs).p50 ≤ (latencyStats xs).p95 := by
  unfold latencyStats
  rw [if_neg (by simpa [List.isEmpty_iff] using hne)]
  exact percentile_mono hne (by norm_num) (by norm_num) (by norm_num)

/-- C9 witness: the latency list `[1, 2]` is non-empty and non-constant and
its summary satisfies `p50 ≤ p95`. -/
theorem p95_ge_p50_witness :
    (([(1 : ℚ), 2] : List ℚ) ≠ [] ∧ ∃ a ∈ [(1 : ℚ), 2], ∃ b ∈ [(1 : ℚ), 2], a ≠ b) ∧
    (latencyStats [(1 : ℚ), 2]).p50 ≤ (latencyStats [(1 : ℚ), 2]).p95 :=
  ⟨⟨by decide, by decide⟩, p95_ge_p50 [(1 : ℚ), 2] (by decide) (by decide)⟩

end HVF
